import Mathlib

/-!
# Verification of the starlit SAT solver core against its specification

Shallow embedding of `src/starlit/src/lit.rs` (literal/variable encoding),
`src/starlit/src/reduce.rs` (clause database reduction) and
`src/starlit-cli/src/main.rs` (front-end unit handling), together with
theorems settling the specification's claims about them.

Machine integers (`u32`/`usize`/`isize`) are modelled as `Nat`/`Int`; all
indices handled by the solver stay far below any overflow boundary, which the
range assertions embedded below make explicit.  Rust `panic!`/`assert!` in
fallible constructors is modelled by returning `Option`.
-/

namespace Starlit

/-- `Var::MAX_INDEX = (LitIdx::MAX >> 2) as usize` with `LitIdx = u32`. -/
def Var.MAX_INDEX : Nat := (2 ^ 32 - 1) >>> 2

/-- `Var::MAX_DIMACS = Var::MAX_INDEX as isize + 1`. -/
def Var.MAX_DIMACS : Int := (Var.MAX_INDEX : Int) + 1

/-- A Boolean variable (`struct Var { index: LitIdx }`). -/
structure Var where
  index : Nat
deriving DecidableEq, Repr

/-- `#[derive(PartialOrd, Ord)]` on `Var`: Rust derives field-wise
(lexicographic) comparison; `Var` has the single field `index`. -/
instance : Ord Var := ⟨fun a b => compare a.index b.index⟩

/-- `Var::from_index`: panics (here: `none`) when the index exceeds
`Var::MAX_INDEX`. -/
def Var.from_index (index : Nat) : Option Var :=
  if index ≤ Var.MAX_INDEX then some ⟨index⟩ else none

/-- `Var::from_dimacs`: panics (here: `none`) unless the number is strictly
positive; then delegates to `Var::from_index` on `number - 1`. -/
def Var.from_dimacs (number : Int) : Option Var :=
  if 0 < number then Var.from_index (number - 1).toNat else none

/-- `Var::dimacs`: the 1-based DIMACS representation `(self.index + 1)`. -/
def Var.dimacs (v : Var) : Int := (v.index : Int) + 1

/-- A Boolean literal (`struct Lit { code: LitIdx }`). -/
structure Lit where
  code : Nat
deriving DecidableEq, Repr

/-- `#[derive(PartialOrd, Ord)]` on `Lit`: Rust derives field-wise
(lexicographic) comparison; `Lit` has the single field `code`. -/
instance : Ord Lit := ⟨fun a b => compare a.code b.code⟩

/-- `Lit::from_var`: `code = (var.index << 1) | (positive as LitIdx)`. -/
def Lit.from_var (var : Var) (positive : Bool) : Lit :=
  ⟨(var.index <<< 1) ||| (if positive then 1 else 0)⟩

/-- `Lit::from_index`: `Lit::from_var(Var::from_index(index), positive)`. -/
def Lit.from_index (index : Nat) (positive : Bool) : Option Lit :=
  (Var.from_index index).map (fun v => Lit.from_var v positive)

/-- `Lit::from_dimacs`: `Lit::from_var(Var::from_dimacs(number.abs()), number > 0)`. -/
def Lit.from_dimacs (number : Int) : Option Lit :=
  (Var.from_dimacs |number|).map (fun v => Lit.from_var v (0 < number))

/-- `Lit::var`: the variable with index `code >> 1`. -/
def Lit.var (l : Lit) : Var := ⟨l.code >>> 1⟩

/-- `Lit::index`: `self.var().index()`. -/
def Lit.index (l : Lit) : Nat := l.var.index

/-- `Lit::is_positive`: `self.code & 1 != 0`. -/
def Lit.is_positive (l : Lit) : Bool := l.code &&& 1 ≠ 0

/-- `Lit::is_negative`: `self.code & 1 == 0`. -/
def Lit.is_negative (l : Lit) : Bool := l.code &&& 1 = 0

/-- `Lit::dimacs`: `var().dimacs() * (if positive then 1 else -1)`. -/
def Lit.dimacs (l : Lit) : Int :=
  l.var.dimacs * (if l.is_positive then 1 else -1)

/-- `trail::Reason`: why a trail literal was assigned (declared outside `src/`;
the variants are those matched in `reduce.rs` and `main.rs` and spec §3). -/
inductive Reason where
  | decision
  | unit
  | binary (lit : Lit)
  | long (clause : Nat)
deriving DecidableEq, Repr

/-- `trail::Step`: one trail entry — the assigned literal, its decision level
and its reason (spec §3 "Assignment Step"). -/
structure Step where
  assignedLit : Lit
  decisionLevel : Nat
  reason : Reason
deriving DecidableEq, Repr

/-- Modelled from the spec (`clauses::long` is not under `src/`): the
per-clause metadata of a long clause — glue, the saturating 2-bit `used`
counter, the `protected` and `redundant` flags (spec §3 "Clause"). -/
structure ClauseData where
  glue : Nat
  used : Nat
  protectedFlag : Bool
  redundant : Bool
deriving DecidableEq, Repr

/-- Modelled from the spec (§4.3): a long clause — an ordered sequence of
literals plus its metadata. -/
structure LongClause where
  lits : List Lit
  data : ClauseData
deriving DecidableEq, Repr

/-- The 24-bit `len` field of `Score` is declared `24 clamp => len`: values
above the field maximum are clamped to it. -/
def clamp24 (len : Nat) : Nat := min len (2 ^ 24 - 1)

/-- Modelled from the spec: the 2-bit `inv_used` field of `Score` receives
`!data.used()`; the `starlit_macros::Bitfield` setter (the macro crate is not
under `src/`) truncates to the field width, so for the 2-bit saturating `used`
counter (values `0..=3`) the stored value is `3 - used` — "prefer deleting
clauses not recently used". -/
def invUsed (used : Nat) : Nat := 3 - used

/-- `Score`: a packed `u32` bitfield, LSB to MSB
`(len: 24 bits clamped, glue: 6 bits, inv_used: 2 bits)`, compared as the
packed integer — "lexicographic order of (used, glue, len)". -/
def Score.pack (inv_used glue len : Nat) : Nat :=
  clamp24 len + 2 ^ 24 * glue + 2 ^ 30 * inv_used

/-- Set the protected bit of the clause with handle `h` (the
`data_mut(clause).set_protected(protected)` call). -/
def setProtectedFlag (db : List (Nat × LongClause)) (h : Nat) (b : Bool) :
    List (Nat × LongClause) :=
  db.map (fun e =>
    if e.1 = h then (e.1, { e.2 with data := { e.2.data with protectedFlag := b } }) else e)

/-- `ReduceOps::protect_clauses`: sets or resets the protected bit for all
currently propagating long clauses — every `Reason::Long` on the trail. -/
def protect_clauses (db : List (Nat × LongClause)) (steps : List Step) (b : Bool) :
    List (Nat × LongClause) :=
  steps.foldl (fun d s =>
    match s.reason with
    | Reason.long h => setProtectedFlag d h b
    | _ => d) db

/-- One long clause's treatment in the scan loop of `ReduceOps::reduce`:
skip protected, non-redundant and glue ≤ 2 clauses; decrement a positive
`used` counter and keep glue ≤ 5 clauses that had `used > 0`; otherwise
produce the clause's deletion score. Returns the updated metadata and the
score if the clause becomes a deletion candidate. -/
def scanData (len : Nat) (d : ClauseData) : ClauseData × Option Nat :=
  if d.protectedFlag then (d, none)
  else if !d.redundant then (d, none)
  else if d.glue ≤ 2 then (d, none)
  else if 0 < d.used then
    let d' := { d with used := d.used - 1 }
    if d.glue ≤ 5 then (d', none)
    else (d', some (Score.pack (invUsed d'.used) d'.glue len))
  else (d, some (Score.pack (invUsed d.used) d.glue len))

/-- The scan loop of `ReduceOps::reduce`: walks all long clauses in database
order, updates their metadata, and collects `(score, clause)` deletion
candidates. -/
def scanClauses : List (Nat × LongClause) → List (Nat × LongClause) × List (Nat × Nat)
  | [] => ([], [])
  | (h, c) :: rest =>
    ((h, { c with data := (scanData c.lits.length c.data).1 }) :: (scanClauses rest).1,
      match (scanData c.lits.length c.data).2 with
      | some s => (s, h) :: (scanClauses rest).2
      | none => (scanClauses rest).2)

/-- The `Ord` on the Rust `(Score, LongClauseRef)` candidate pairs:
lexicographic — score first, then the clause handle (spec §9: clause handles
are plain indices into the clause arena, ordered as integers). -/
def pairLe (a b : Nat × Nat) : Prop :=
  a.1 < b.1 ∨ (a.1 = b.1 ∧ a.2 ≤ b.2)

instance : DecidableRel pairLe := fun a b =>
  decidable_of_iff (a.1 < b.1 ∨ (a.1 = b.1 ∧ a.2 ≤ b.2)) Iff.rfl

/-- `select_nth_unstable(candidate_count / 2)` followed by deleting the
`higher` slice: the clause handles are pairwise distinct, so the deleted
pairs are exactly the elements strictly after position `candidate_count / 2`
of the sorted order, which this model takes directly (the unstable partial
selection leaves the same set of elements above the pivot). -/
def selectDeleted (cands : List (Nat × Nat)) : List (Nat × Nat) :=
  if cands.isEmpty then []
  else (List.insertionSort pairLe cands).drop (cands.length / 2 + 1)

/-- The `deletion_candidates` vector built by `ReduceOps::reduce`. -/
def reduceCandidates (db : List (Nat × LongClause)) (steps : List Step) : List (Nat × Nat) :=
  (scanClauses (protect_clauses db steps true)).2

/-- `ReduceOps::reduce`: protect reason clauses, scan the database for
deletion candidates, delete the worse-scored part of the candidate pool, and
unprotect the reason clauses again. -/
def reduce (db : List (Nat × LongClause)) (steps : List Step) : List (Nat × LongClause) :=
  let db1 := protect_clauses db steps true
  let db2 := (scanClauses db1).1
  let dels := selectDeleted (scanClauses db1).2
  let db3 := db2.filter (fun e => !(dels.any (fun d => d.2 == e.1)))
  protect_clauses db3 steps false

instance : IsTotal (Nat × Nat) pairLe :=
  ⟨by
    intro a b
    unfold pairLe
    omega⟩

instance : IsTrans (Nat × Nat) pairLe :=
  ⟨by
    intro a b c
    unfold pairLe
    omega⟩

def exClauseA : LongClause := ⟨[⟨0⟩, ⟨2⟩, ⟨4⟩], ⟨6, 0, false, true⟩⟩

def exClauseB : LongClause := ⟨[⟨0⟩, ⟨2⟩, ⟨4⟩, ⟨6⟩], ⟨6, 0, false, true⟩⟩

def exClauseC : LongClause := ⟨[⟨0⟩, ⟨2⟩, ⟨4⟩, ⟨6⟩, ⟨8⟩], ⟨6, 0, false, true⟩⟩

def exDb2 : List (Nat × LongClause) := [(0, exClauseA), (1, exClauseB)]

def exDb3 : List (Nat × LongClause) := [(0, exClauseA), (1, exClauseB), (2, exClauseC)]

/-- Modelled from the spec (the Trail's assignment store is not under `src/`):
literal negation "flips the low bit without touching the rest" (spec §3). -/
def Lit.neg (l : Lit) : Lit := ⟨l.code ^^^ 1⟩

/-- Modelled from the spec (§4.2 `is_true`): the assignment state reached by
pushing unit literals, queried for the pushed literal itself. -/
def isTrueIn (assigned : List Lit) (l : Lit) : Bool := assigned.contains l

/-- Modelled from the spec (§4.2 `is_false`): the literal's negation is
assigned. -/
def isFalseIn (assigned : List Lit) (l : Lit) : Bool := assigned.contains l.neg

/-- One observable action of the `starlit-cli` `main` front-end. -/
inductive FrontEvent where
  | addClause (lits : List Lit)
  | assignUnit (s : Step)
  | reportUnsat
  | solveStarted
deriving DecidableEq, Repr

/-- The input loop of `main`: a clause matching `[unit]` (length exactly 1) is
set aside, in input order, in the `units` vector; every other clause is added
to the database immediately. Returns (non-unit clauses, units). -/
def splitUnits : List (List Lit) → List (List Lit) × List Lit
  | [] => ([], [])
  | c :: rest =>
    match c with
    | [u] => ((splitUnits rest).1, u :: (splitUnits rest).2)
    | _ => (c :: (splitUnits rest).1, (splitUnits rest).2)

/-- The unit loop of `main`: a unit whose literal is already false reports the
`false` verdict and returns at once (no further events); an already-true unit
is skipped; otherwise the unit is assigned at decision level 0 with reason
`Unit`. After the loop, `solve()` starts. -/
def unitEvents (assigned : List Lit) : List Lit → List FrontEvent
  | [] => [FrontEvent.solveStarted]
  | u :: rest =>
    if isFalseIn assigned u then [FrontEvent.reportUnsat]
    else if isTrueIn assigned u then unitEvents assigned rest
    else FrontEvent.assignUnit ⟨u, 0, Reason.unit⟩ :: unitEvents (u :: assigned) rest

/-- The observable event sequence of `starlit-cli` `main` on an input clause
list: the input loop adds every clause of length ≠ 1 via `add_clause` in input
order (units are only collected), and only then the unit loop runs. -/
def mainEvents (clauses : List (List Lit)) : List FrontEvent :=
  ((splitUnits clauses).1).map FrontEvent.addClause ++
    unitEvents [] (splitUnits clauses).2

theorem Var.MAX_INDEX_eq : Var.MAX_INDEX = 2 ^ 30 - 1 := by
  decide

/-- `(i << 1) | b` with `b ≤ 1` is plain arithmetic `2 * i + b`. -/
theorem shiftLeft_one_lor (i : Nat) (b : Bool) :
    (i <<< 1) ||| (if b then 1 else 0) = 2 * i + (if b then 1 else 0) := by
  have h1 : i <<< 1 = 2 * i := by
    rw [Nat.shiftLeft_eq]
    ring
  rw [h1]
  cases b
  · simp
  · simp only [if_true]
    have h2 : 2 * i ||| 1 = Nat.bit false i ||| Nat.bit true 0 := by
      simp [Nat.bit_val]
    rw [h2, Nat.lor_bit]
    simp [Nat.bit_val]

theorem Lit.from_var_code (v : Var) (p : Bool) :
    (Lit.from_var v p).code = 2 * v.index + (if p then 1 else 0) := by
  unfold Lit.from_var
  exact shiftLeft_one_lor _ _

theorem Lit.var_index (l : Lit) : l.var.index = l.code / 2 := by
  unfold Lit.var
  simp [Nat.shiftRight_eq_div_pow]

theorem Lit.from_var_code_toNat (v : Var) (p : Bool) :
    (Lit.from_var v p).code = 2 * v.index + p.toNat := by
  rw [Lit.from_var_code]
  cases p
  · simp
  · simp

theorem Lit.ext_code {a b : Lit} (h : a.code = b.code) : a = b := by
  cases a
  cases b
  cases h
  rfl

theorem Var.ext_index {a b : Var} (h : a.index = b.index) : a = b := by
  cases a
  cases b
  cases h
  rfl

theorem Lit.is_positive_eq (l : Lit) : l.is_positive = (l.code % 2 != 0) := by
  unfold Lit.is_positive
  rw [Nat.and_one_is_mod]
  by_cases h : l.code % 2 = 0
  · simp [h]
  · have h1 : l.code % 2 = 1 := by omega
    simp only [h1]
    decide

/-- Closed form of `Lit::dimacs` in terms of the literal's code. -/
theorem Lit.dimacs_eq (l : Lit) :
    l.dimacs = if l.code % 2 = 0 then -((l.code / 2 : Int) + 1) else (l.code / 2 : Int) + 1 := by
  unfold Lit.dimacs Var.dimacs
  rw [Lit.is_positive_eq, Lit.var_index]
  by_cases h : l.code % 2 = 0
  · rw [if_pos h]
    have hb : (l.code % 2 != 0) = false := by simp [h]
    rw [hb]
    simp
  · rw [if_neg h]
    have hb : (l.code % 2 != 0) = true := by
      simp only [bne_iff_ne, ne_eq]
      omega
    rw [hb]
    simp

/-- C3: Encoding round-trip — for every 1-based signed external literal number
`n` with `0 < |n| ≤ Var::MAX_DIMACS`, constructing a literal from it and
converting back yields `n`: `Lit::from_dimacs(n).dimacs() == n`. -/
theorem claim_C3_dimacs_roundtrip (n : Int) (h0 : 0 < |n|) (h : |n| ≤ Var.MAX_DIMACS) :
    ∃ l, Lit.from_dimacs n = some l ∧ l.dimacs = n := by
  have hMD : Var.MAX_DIMACS = (Var.MAX_INDEX : Int) + 1 := rfl
  have habs : |n| = (n.natAbs : Int) := Int.abs_eq_natAbs n
  rw [habs] at h0 h
  have hidx : (|n| - 1).toNat ≤ Var.MAX_INDEX := by
    rw [habs]
    omega
  have hvar : Var.from_dimacs |n| = some ⟨n.natAbs - 1⟩ := by
    unfold Var.from_dimacs Var.from_index
    rw [if_pos (by rw [habs]; exact_mod_cast h0), if_pos hidx]
    congr 2
    rw [habs]
    omega
  refine ⟨Lit.from_var ⟨n.natAbs - 1⟩ (0 < n), ?_, ?_⟩
  · unfold Lit.from_dimacs
    rw [hvar]
    rfl
  · rw [Lit.dimacs_eq, Lit.from_var_code_toNat]
    dsimp only
    by_cases hn : 0 < n
    · rw [decide_eq_true hn, Bool.toNat_true]
      rw [if_neg (by omega)]
      push_cast
      omega
    · rw [decide_eq_false hn, Bool.toNat_false]
      rw [if_pos (by omega)]
      push_cast
      omega

theorem claim_C3_witness :
    (0 : Int) < |(-3 : Int)| ∧ |(-3 : Int)| ≤ Var.MAX_DIMACS ∧
    ∃ l, Lit.from_dimacs (-3) = some l ∧ l.dimacs = -3 := by
  have h0 : (0 : Int) < |(-3 : Int)| := by decide
  have h1 : |(-3 : Int)| ≤ Var.MAX_DIMACS := by
    have hMD : Var.MAX_DIMACS = (Var.MAX_INDEX : Int) + 1 := rfl
    rw [hMD, Var.MAX_INDEX_eq]
    norm_num
  exact ⟨h0, h1, claim_C3_dimacs_roundtrip (-3) h0 h1⟩

/-- C4: Literal encoding invariant — `Lit::from_var(v, p)` has code
`2 * v.index + p`, `literal.var().index() == literal.code() >> 1`, and the two
literals of one variable occupy the adjacent codes `2*i` and `2*i + 1`. -/
theorem claim_C4_lit_encoding :
    (∀ (v : Var) (p : Bool), v.index ≤ Var.MAX_INDEX →
      (Lit.from_var v p).code = 2 * v.index + (if p then 1 else 0)) ∧
    (∀ l : Lit, l.var.index = l.code / 2) ∧
    (∀ v : Var, v.index ≤ Var.MAX_INDEX →
      (Lit.from_var v false).code = 2 * v.index ∧
      (Lit.from_var v true).code = 2 * v.index + 1) := by
  refine ⟨fun v p _ => Lit.from_var_code v p, fun l => Lit.var_index l, fun v _ => ⟨?_, ?_⟩⟩
  · rw [Lit.from_var_code]
    simp
  · rw [Lit.from_var_code]
    simp

theorem claim_C4_witness :
    (Lit.from_var ⟨5⟩ true).code = 2 * 5 + 1 ∧ (⟨11⟩ : Lit).var.index = 11 / 2 := by
  have h1 := claim_C4_lit_encoding.1 ⟨5⟩ true (by decide)
  have h2 := claim_C4_lit_encoding.2.1 ⟨11⟩
  exact ⟨by simpa using h1, h2⟩

/-- C8: Checked construction enforces the representable range —
`Var::from_dimacs(n)` succeeds with index `n - 1` exactly when
`0 < n ≤ Var::MAX_DIMACS` (and panics, modelled `none`, otherwise);
`Var::from_index(i)` succeeds with index `i` exactly when `i ≤ Var::MAX_INDEX`;
no variable produced by a safe constructor has an index above `Var::MAX_INDEX`. -/
theorem claim_C8_checked_range :
    (∀ n : Int, (∃ v, Var.from_dimacs n = some v) ↔ 0 < n ∧ n ≤ Var.MAX_DIMACS) ∧
    (∀ (n : Int) (v : Var), Var.from_dimacs n = some v → (v.index : Int) = n - 1) ∧
    (∀ i : Nat, (∃ v, Var.from_index i = some v) ↔ i ≤ Var.MAX_INDEX) ∧
    (∀ (i : Nat) (v : Var), Var.from_index i = some v → v.index = i) ∧
    (∀ (n : Int) (v : Var), Var.from_dimacs n = some v → v.index ≤ Var.MAX_INDEX) ∧
    (∀ (i : Nat) (v : Var), Var.from_index i = some v → v.index ≤ Var.MAX_INDEX) := by
  have hfi : ∀ (i : Nat) (v : Var), Var.from_index i = some v →
      v.index = i ∧ i ≤ Var.MAX_INDEX := by
    intro i v h
    unfold Var.from_index at h
    by_cases hle : i ≤ Var.MAX_INDEX
    · rw [if_pos hle] at h
      cases h
      exact ⟨rfl, hle⟩
    · rw [if_neg hle] at h
      cases h
  have hfd : ∀ (n : Int) (v : Var), Var.from_dimacs n = some v →
      0 < n ∧ (v.index : Int) = n - 1 ∧ v.index ≤ Var.MAX_INDEX := by
    intro n v h
    unfold Var.from_dimacs at h
    by_cases hn : 0 < n
    · rw [if_pos hn] at h
      obtain ⟨hv, hle⟩ := hfi _ _ h
      exact ⟨hn, by omega, by omega⟩
    · rw [if_neg hn] at h
      cases h
  have hMD : Var.MAX_DIMACS = (Var.MAX_INDEX : Int) + 1 := rfl
  refine ⟨?_, fun n v h => (hfd n v h).2.1, ?_, fun i v h => (hfi i v h).1,
    fun n v h => (hfd n v h).2.2,
    fun i v h => by obtain ⟨h1, h2⟩ := hfi i v h; omega⟩
  · intro n
    constructor
    · rintro ⟨v, hv⟩
      obtain ⟨h1, h2, h3⟩ := hfd n v hv
      omega
    · rintro ⟨h1, h2⟩
      refine ⟨⟨(n - 1).toNat⟩, ?_⟩
      unfold Var.from_dimacs Var.from_index
      rw [if_pos h1, if_pos (by omega)]
  · intro i
    constructor
    · rintro ⟨v, hv⟩
      exact (hfi i v hv).2
    · intro h
      refine ⟨⟨i⟩, ?_⟩
      unfold Var.from_index
      rw [if_pos h]

theorem claim_C8_witness :
    ((∃ v, Var.from_dimacs 7 = some v) ↔ (0 < (7 : Int) ∧ (7 : Int) ≤ Var.MAX_DIMACS)) ∧
    (∀ v : Var, Var.from_index 4 = some v → v.index = 4) ∧
    Var.from_index 4 = some ⟨4⟩ := by
  refine ⟨claim_C8_checked_range.1 7, fun v h => claim_C8_checked_range.2.2.2.1 4 v h, ?_⟩
  unfold Var.from_index
  rw [if_pos (by decide)]

/-- C9: The canonical ordering on literals is the ordering of their integer
encodings — under the derived `Ord`, `a ≤ b` (i.e. `compare a b` is `lt` or
`eq`) iff `a.code ≤ b.code`, with equality exactly at equal literals; likewise
for variables with their indices. -/
theorem claim_C9_order_by_code :
    (∀ a b : Lit, (compare a b).isLE = true ↔ a.code ≤ b.code) ∧
    (∀ a b : Lit, compare a b = Ordering.eq ↔ a = b) ∧
    (∀ a b : Var, (compare a b).isLE = true ↔ a.index ≤ b.index) ∧
    (∀ a b : Var, compare a b = Ordering.eq ↔ a = b) := by
  have hnat : ∀ x y : Nat, (compare x y).isLE = true ↔ x ≤ y := by
    intro x y
    rcases lt_trichotomy x y with h | h | h
    · rw [Nat.compare_eq_lt.2 h]
      constructor
      · intro _
        omega
      · intro _
        rfl
    · subst h
      rw [Nat.compare_eq_eq.2 rfl]
      constructor
      · intro _
        omega
      · intro _
        rfl
    · rw [Nat.compare_eq_gt.2 h]
      constructor
      · intro hc
        exact absurd hc (by decide)
      · intro hx
        exact absurd hx (by omega)
  refine ⟨fun a b => hnat a.code b.code, fun a b => ?_,
    fun a b => hnat a.index b.index, fun a b => ?_⟩
  · constructor
    · intro h
      exact Lit.ext_code (Nat.compare_eq_eq.1 h)
    · rintro rfl
      exact Nat.compare_eq_eq.2 rfl
  · constructor
    · intro h
      exact Var.ext_index (Nat.compare_eq_eq.1 h)
    · rintro rfl
      exact Nat.compare_eq_eq.2 rfl

/-- C10: Reverse encoding round-trip — for every valid literal `l` (code within
the representable range), `l.dimacs()` is nonzero with `|l.dimacs()| ≤
Var::MAX_DIMACS`, and `Lit::from_dimacs(l.dimacs()) == l`. -/
theorem claim_C10_dimacs_reverse_roundtrip (l : Lit)
    (h : l.code ≤ 2 * Var.MAX_INDEX + 1) :
    l.dimacs ≠ 0 ∧ |l.dimacs| ≤ Var.MAX_DIMACS ∧ Lit.from_dimacs l.dimacs = some l := by
  have hMD : Var.MAX_DIMACS = (Var.MAX_INDEX : Int) + 1 := rfl
  have hd := Lit.dimacs_eq l
  by_cases h2 : l.code % 2 = 0
  · rw [if_pos h2] at hd
    have h1 : l.dimacs ≠ 0 := by omega
    have habs : |l.dimacs| = (l.code / 2 : Int) + 1 := by
      rw [hd, abs_of_neg (by omega)]
      ring
    refine ⟨h1, by omega, ?_⟩
    have hvar : Var.from_dimacs |l.dimacs| = some ⟨l.code / 2⟩ := by
      unfold Var.from_dimacs Var.from_index
      rw [if_pos (by omega), if_pos (by omega)]
      congr 2
      omega
    unfold Lit.from_dimacs
    rw [hvar]
    have hb : decide (0 < l.dimacs) = false := decide_eq_false (by omega)
    simp only [Option.map_some', hb]
    congr 1
    refine Lit.ext_code ?_
    rw [Lit.from_var_code_toNat]
    dsimp only
    rw [Bool.toNat_false]
    omega
  · rw [if_neg h2] at hd
    have h1 : l.dimacs ≠ 0 := by omega
    have habs : |l.dimacs| = (l.code / 2 : Int) + 1 := by
      rw [hd, abs_of_pos (by omega)]
    refine ⟨h1, by omega, ?_⟩
    have hvar : Var.from_dimacs |l.dimacs| = some ⟨l.code / 2⟩ := by
      unfold Var.from_dimacs Var.from_index
      rw [if_pos (by omega), if_pos (by omega)]
      congr 2
      omega
    unfold Lit.from_dimacs
    rw [hvar]
    have hb : decide (0 < l.dimacs) = true := decide_eq_true (by omega)
    simp only [Option.map_some', hb]
    congr 1
    refine Lit.ext_code ?_
    rw [Lit.from_var_code_toNat]
    dsimp only
    rw [Bool.toNat_true]
    omega

theorem claim_C10_witness :
    (⟨9⟩ : Lit).code ≤ 2 * Var.MAX_INDEX + 1 ∧
    (⟨9⟩ : Lit).dimacs ≠ 0 ∧ |(⟨9⟩ : Lit).dimacs| ≤ Var.MAX_DIMACS ∧
    Lit.from_dimacs (⟨9⟩ : Lit).dimacs = some ⟨9⟩ := by
  have hc : (⟨9⟩ : Lit).code ≤ 2 * Var.MAX_INDEX + 1 := by decide
  exact ⟨hc, claim_C10_dimacs_reverse_roundtrip ⟨9⟩ hc⟩

/-- C5: The reduction `Score` comparison is lexicographic on
(not-recently-used, glue, length): a clause scores strictly worse (higher,
preferred for deletion) first if its `used` counter is smaller, then if its
glue is higher, then if its 24-bit-clamped length is longer. -/
theorem claim_C5_score_lex (u1 u2 g1 g2 l1 l2 : Nat)
    (hu1 : u1 ≤ 3) (hu2 : u2 ≤ 3) (hg1 : g1 < 64) (hg2 : g2 < 64) :
    Score.pack (invUsed u1) g1 l1 > Score.pack (invUsed u2) g2 l2 ↔
      (u1 < u2 ∨ (u1 = u2 ∧ (g1 > g2 ∨ (g1 = g2 ∧ clamp24 l1 > clamp24 l2)))) := by
  unfold Score.pack invUsed clamp24
  omega

theorem claim_C5_witness :
    ((1 : Nat) ≤ 3 ∧ (2 : Nat) ≤ 3 ∧ (7 : Nat) < 64 ∧ (5 : Nat) < 64) ∧
    (Score.pack (invUsed 1) 7 10 > Score.pack (invUsed 2) 5 99 ↔
      (1 < 2 ∨ ((1 : Nat) = 2 ∧ (7 > 5 ∨ ((7 : Nat) = 5 ∧ clamp24 10 > clamp24 99))))) := by
  exact ⟨⟨by decide, by decide, by decide, by decide⟩,
    claim_C5_score_lex 1 2 7 5 10 99 (by decide) (by decide) (by decide) (by decide)⟩

theorem setProtectedFlag_fst (db : List (Nat × LongClause)) (h : Nat) (b : Bool) :
    (setProtectedFlag db h b).map Prod.fst = db.map Prod.fst := by
  unfold setProtectedFlag
  induction db with
  | nil => rfl
  | cons e rest ih =>
    simp only [List.map_cons]
    rw [ih]
    congr 1
    by_cases he : e.1 = h
    · rw [if_pos he]
    · rw [if_neg he]

theorem setProtectedFlag_mem_ne (db : List (Nat × LongClause)) (hdl h : Nat)
    (c : LongClause) (b : Bool) (hne : h ≠ hdl) (hm : (h, c) ∈ db) :
    (h, c) ∈ setProtectedFlag db hdl b := by
  unfold setProtectedFlag
  refine List.mem_map.2 ⟨(h, c), hm, ?_⟩
  simp [hne]

theorem setProtectedFlag_mem_eq (db : List (Nat × LongClause)) (h : Nat)
    (c : LongClause) (b : Bool) (hm : (h, c) ∈ db) :
    (h, { c with data := { c.data with protectedFlag := b } }) ∈ setProtectedFlag db h b := by
  unfold setProtectedFlag
  refine List.mem_map.2 ⟨(h, c), hm, ?_⟩
  simp

theorem protect_clauses_cons_long (db : List (Nat × LongClause)) (s : Step)
    (rest : List Step) (b : Bool) (h : Nat) (hs : s.reason = Reason.long h) :
    protect_clauses db (s :: rest) b = protect_clauses (setProtectedFlag db h b) rest b := by
  unfold protect_clauses
  rw [List.foldl_cons, hs]

theorem protect_clauses_cons_other (db : List (Nat × LongClause)) (s : Step)
    (rest : List Step) (b : Bool) (hs : ∀ h, s.reason ≠ Reason.long h) :
    protect_clauses db (s :: rest) b = protect_clauses db rest b := by
  unfold protect_clauses
  rw [List.foldl_cons]
  rcases hr : s.reason with _ | _ | l | h
  · rfl
  · rfl
  · rfl
  · exact absurd hr (hs h)

theorem protect_clauses_fst (steps : List Step) (db : List (Nat × LongClause)) (b : Bool) :
    (protect_clauses db steps b).map Prod.fst = db.map Prod.fst := by
  induction steps generalizing db with
  | nil => rfl
  | cons s rest ih =>
    rcases hr : s.reason with _ | _ | l | h
    · rw [protect_clauses_cons_other db s rest b (by rw [hr]; intro h he; cases he)]
      exact ih db
    · rw [protect_clauses_cons_other db s rest b (by rw [hr]; intro h he; cases he)]
      exact ih db
    · rw [protect_clauses_cons_other db s rest b (by rw [hr]; intro h he; cases he)]
      exact ih db
    · rw [protect_clauses_cons_long db s rest b h hr, ih, setProtectedFlag_fst]

/-- Tracking one database entry through `protect_clauses`: the entry keeps its
handle, literals, glue, `used` counter and redundancy flag; if some trail step
has it as a `Reason::Long` its protected bit is set to `b`, and if no step
does, the entry is untouched. -/
theorem protect_clauses_mem_track (steps : List Step) (db : List (Nat × LongClause))
    (b : Bool) (h : Nat) (c : LongClause) (hm : (h, c) ∈ db) :
    ∃ c', (h, c') ∈ protect_clauses db steps b ∧
      c'.lits = c.lits ∧ c'.data.glue = c.data.glue ∧
      c'.data.redundant = c.data.redundant ∧ c'.data.used = c.data.used ∧
      ((∃ s ∈ steps, s.reason = Reason.long h) → c'.data.protectedFlag = b) ∧
      ((∀ s ∈ steps, s.reason ≠ Reason.long h) → c' = c) := by
  induction steps generalizing db c with
  | nil =>
    refine ⟨c, hm, rfl, rfl, rfl, rfl, ?_, fun _ => rfl⟩
    rintro ⟨s, hs, _⟩
    exact absurd hs (List.not_mem_nil s)
  | cons s rest ih =>
    rcases hr : s.reason with _ | _ | l | h'
    case decision =>
      rw [protect_clauses_cons_other db s rest b (by rw [hr]; intro h he; cases he)]
      obtain ⟨c', hmem, hl, hg, hrd, hu, hpro, hid⟩ := ih db c hm
      refine ⟨c', hmem, hl, hg, hrd, hu, ?_, ?_⟩
      · rintro ⟨s', hs', hres⟩
        rcases List.mem_cons.1 hs' with rfl | hs''
        · rw [hr] at hres
          cases hres
        · exact hpro ⟨s', hs'', hres⟩
      · intro hall
        exact hid (fun s' hs' => hall s' (List.mem_cons_of_mem s hs'))
    case unit =>
      rw [protect_clauses_cons_other db s rest b (by rw [hr]; intro h he; cases he)]
      obtain ⟨c', hmem, hl, hg, hrd, hu, hpro, hid⟩ := ih db c hm
      refine ⟨c', hmem, hl, hg, hrd, hu, ?_, ?_⟩
      · rintro ⟨s', hs', hres⟩
        rcases List.mem_cons.1 hs' with rfl | hs''
        · rw [hr] at hres
          cases hres
        · exact hpro ⟨s', hs'', hres⟩
      · intro hall
        exact hid (fun s' hs' => hall s' (List.mem_cons_of_mem s hs'))
    case binary =>
      rw [protect_clauses_cons_other db s rest b (by rw [hr]; intro h he; cases he)]
      obtain ⟨c', hmem, hl, hg, hrd, hu, hpro, hid⟩ := ih db c hm
      refine ⟨c', hmem, hl, hg, hrd, hu, ?_, ?_⟩
      · rintro ⟨s', hs', hres⟩
        rcases List.mem_cons.1 hs' with rfl | hs''
        · rw [hr] at hres
          cases hres
        · exact hpro ⟨s', hs'', hres⟩
      · intro hall
        exact hid (fun s' hs' => hall s' (List.mem_cons_of_mem s hs'))
    case long =>
      rw [protect_clauses_cons_long db s rest b h' hr]
      by_cases hh : h' = h
      · subst hh
        have hm2 := setProtectedFlag_mem_eq db h' c b hm
        obtain ⟨c', hmem, hl, hg, hrd, hu, hpro, hid⟩ := ih _ _ hm2
        refine ⟨c', hmem, hl, hg, hrd, hu, ?_, ?_⟩
        · intro _
          by_cases hrest : ∃ s' ∈ rest, s'.reason = Reason.long h'
          · exact hpro hrest
          · push_neg at hrest
            rw [hid hrest]
        · intro hall
          exact absurd hr (hall s (List.mem_cons_self s rest))
      · have hm2 := setProtectedFlag_mem_ne db h' h c b (fun he => hh he.symm) hm
        obtain ⟨c', hmem, hl, hg, hrd, hu, hpro, hid⟩ := ih _ _ hm2
        refine ⟨c', hmem, hl, hg, hrd, hu, ?_, ?_⟩
        · rintro ⟨s', hs', hres⟩
          rcases List.mem_cons.1 hs' with rfl | hs''
          · rw [hr] at hres
            injection hres with he
            exact absurd he hh
          · exact hpro ⟨s', hs'', hres⟩
        · intro hall
          exact hid (fun s' hs' => hall s' (List.mem_cons_of_mem s hs'))

/-- Any entry of the database survives `protect_clauses` with its handle and
literals (only the protected bit can change). -/
theorem protect_clauses_mem_exists (steps : List Step) (db : List (Nat × LongClause))
    (b : Bool) (h : Nat) (c : LongClause) (hm : (h, c) ∈ db) :
    ∃ c', (h, c') ∈ protect_clauses db steps b ∧ c'.lits = c.lits ∧
      c'.data.used = c.data.used := by
  obtain ⟨c', hmem, hl, _, _, hu, _, _⟩ := protect_clauses_mem_track steps db b h c hm
  exact ⟨c', hmem, hl, hu⟩

theorem scanClauses_fst (db : List (Nat × LongClause)) :
    ((scanClauses db).1).map Prod.fst = db.map Prod.fst := by
  induction db with
  | nil => rfl
  | cons e rest ih =>
    obtain ⟨h, c⟩ := e
    unfold scanClauses
    rcases hsc : (scanData c.lits.length c.data).2 with _ | s
    · simp only [hsc, List.map_cons]
      rw [ih]
    · simp only [hsc, List.map_cons]
      rw [ih]

theorem scanClauses_cands_sublist (db : List (Nat × LongClause)) :
    List.Sublist (((scanClauses db).2).map Prod.snd) (db.map Prod.fst) := by
  induction db with
  | nil => exact List.Sublist.refl _
  | cons e rest ih =>
    obtain ⟨h, c⟩ := e
    unfold scanClauses
    rcases hsc : (scanData c.lits.length c.data).2 with _ | s
    · simp only [hsc, List.map_cons]
      exact List.Sublist.cons h ih
    · simp only [hsc, List.map_cons]
      exact List.Sublist.cons₂ h ih

theorem scanClauses_mem (db : List (Nat × LongClause)) (h : Nat) (c : LongClause)
    (hm : (h, c) ∈ db) :
    (h, { c with data := (scanData c.lits.length c.data).1 }) ∈ (scanClauses db).1 := by
  induction db with
  | nil => exact absurd hm (List.not_mem_nil _)
  | cons e rest ih =>
    obtain ⟨h0, c0⟩ := e
    rcases List.mem_cons.1 hm with heq | hm'
    · injection heq with he1 he2
      subst he1
      subst he2
      unfold scanClauses
      rcases hsc : (scanData c.lits.length c.data).2 with _ | s
      · exact List.mem_cons_self _ _
      · exact List.mem_cons_self _ _
    · unfold scanClauses
      rcases hsc : (scanData c0.lits.length c0.data).2 with _ | s
      · exact List.mem_cons_of_mem _ (ih hm')
      · exact List.mem_cons_of_mem _ (ih hm')

theorem scanClauses_not_cand (db : List (Nat × LongClause)) (h : Nat) (c : LongClause)
    (hnd : (db.map Prod.fst).Nodup) (hm : (h, c) ∈ db)
    (hnone : (scanData c.lits.length c.data).2 = none) :
    h ∉ ((scanClauses db).2).map Prod.snd := by
  induction db with
  | nil => exact absurd hm (List.not_mem_nil _)
  | cons e rest ih =>
    obtain ⟨h0, c0⟩ := e
    have hnd' : ((rest.map Prod.fst)).Nodup := (List.nodup_cons.1 hnd).2
    have hh0 : h0 ∉ rest.map Prod.fst := (List.nodup_cons.1 hnd).1
    rcases List.mem_cons.1 hm with heq | hm'
    · injection heq with he1 he2
      subst he1
      subst he2
      unfold scanClauses
      simp only [hnone]
      intro hcon
      have : h ∈ rest.map Prod.fst :=
        (scanClauses_cands_sublist rest).subset (by simpa using hcon)
      exact hh0 this
    · have hne : h0 ≠ h := by
        intro heq
        subst heq
        exact hh0 (List.mem_map.2 ⟨(h0, c), hm', rfl⟩)
      unfold scanClauses
      rcases hsc : (scanData c0.lits.length c0.data).2 with _ | s
      · simp only [hsc]
        exact ih hnd' hm'
      · simp only [hsc]
        intro hcon
        simp only [List.map_cons, List.mem_cons] at hcon
        rcases hcon with heq | hcon'
        · exact hne heq.symm
        · exact ih hnd' hm' hcon'

theorem scanClauses_cands_nodup (db : List (Nat × LongClause))
    (hnd : (db.map Prod.fst).Nodup) :
    (((scanClauses db).2).map Prod.snd).Nodup :=
  (scanClauses_cands_sublist db).nodup hnd

/-- A clause that is protected, non-redundant, or has glue ≤ 2 is skipped by
the scan loop: metadata untouched, no deletion candidate. -/
theorem scanData_skip (len : Nat) (d : ClauseData)
    (hcond : d.protectedFlag = true ∨ d.redundant = false ∨ d.glue ≤ 2) :
    scanData len d = (d, none) := by
  unfold scanData
  by_cases hp : d.protectedFlag = true
  · simp [hp]
  · have hp' : d.protectedFlag = false := by
      revert hp
      cases d.protectedFlag
      · intro _
        rfl
      · intro hc
        exact absurd rfl hc
    rcases hcond with h1 | h1 | h1
    · exact absurd h1 hp
    · simp [hp', h1]
    · by_cases hr : d.redundant = false
      · simp [hp', hr]
      · have hr' : d.redundant = true := by
          revert hr
          cases d.redundant
          · intro hc
            exact absurd rfl hc
          · intro _
            rfl
        simp [hp', hr', h1]

/-- The medium tier: an unprotected redundant clause with `3 ≤ glue ≤ 5` and a
positive `used` counter is kept (not a candidate), with `used` decremented. -/
theorem scanData_medium (len : Nat) (d : ClauseData)
    (hp : d.protectedFlag = false) (hr : d.redundant = true)
    (hg3 : 3 ≤ d.glue) (hg5 : d.glue ≤ 5) (hu : 0 < d.used) :
    scanData len d = ({ d with used := d.used - 1 }, none) := by
  have h2 : ¬ d.glue ≤ 2 := by omega
  unfold scanData
  rw [if_neg (by rw [hp]; exact Bool.false_ne_true),
    if_neg (by rw [hr]; simp), if_neg h2, if_pos hu, if_pos hg5]

/-- Every unprotected redundant clause with glue ≥ 3 has its `used` counter
decremented by the scan (saturating at 0: a zero counter stays zero). -/
theorem scanData_used_dec (len : Nat) (d : ClauseData)
    (hp : d.protectedFlag = false) (hr : d.redundant = true) (hg3 : 3 ≤ d.glue) :
    ((scanData len d).1).used = d.used - 1 ∧
    ((scanData len d).1).glue = d.glue ∧
    ((scanData len d).1).redundant = d.redundant ∧
    ((scanData len d).1).protectedFlag = d.protectedFlag := by
  have h2 : ¬ d.glue ≤ 2 := by omega
  unfold scanData
  rw [if_neg (by rw [hp]; exact Bool.false_ne_true),
    if_neg (by rw [hr]; simp), if_neg h2]
  by_cases hu : 0 < d.used
  · rw [if_pos hu]
    by_cases hg5 : d.glue ≤ 5
    · rw [if_pos hg5]
      exact ⟨rfl, rfl, rfl, rfl⟩
    · rw [if_neg hg5]
      exact ⟨rfl, rfl, rfl, rfl⟩
  · rw [if_neg hu]
    refine ⟨?_, rfl, rfl, rfl⟩
    dsimp only
    omega

theorem selectDeleted_subset (cands : List (Nat × Nat)) (d : Nat × Nat)
    (hd : d ∈ selectDeleted cands) : d ∈ cands := by
  unfold selectDeleted at hd
  by_cases he : cands.isEmpty
  · rw [if_pos he] at hd
    exact absurd hd (List.not_mem_nil d)
  · rw [if_neg he] at hd
    exact (List.perm_insertionSort pairLe cands).subset (List.mem_of_mem_drop hd)

theorem selectDeleted_length (cands : List (Nat × Nat)) :
    (selectDeleted cands).length = cands.length - (cands.length / 2 + 1) := by
  unfold selectDeleted
  by_cases he : cands.isEmpty
  · rw [if_pos he]
    have h0 : cands.length = 0 := List.isEmpty_iff_length_eq_zero.1 he
    simp [h0]
  · rw [if_neg he]
    rw [List.length_drop]
    congr 1
    exact (List.perm_insertionSort pairLe cands).length_eq

/-- Every selected (deleted) candidate is `pairLe`-above every candidate that
is not selected. -/
theorem selectDeleted_worse (cands : List (Nat × Nat)) (d k : Nat × Nat)
    (hd : d ∈ selectDeleted cands) (hk : k ∈ cands) (hnk : k ∉ selectDeleted cands) :
    pairLe k d := by
  unfold selectDeleted at hd hnk
  by_cases he : cands.isEmpty
  · rw [if_pos he] at hd
    exact absurd hd (List.not_mem_nil d)
  · rw [if_neg he] at hd hnk
    set sorted := List.insertionSort pairLe cands with hsorted
    set m := cands.length / 2 + 1 with hm
    have hsort : List.Sorted pairLe sorted := List.sorted_insertionSort pairLe cands
    have hsplit : sorted.take m ++ sorted.drop m = sorted := List.take_append_drop m sorted
    have hpw : List.Pairwise pairLe (sorted.take m ++ sorted.drop m) := by
      rw [hsplit]
      exact hsort
    have hcross := (List.pairwise_append.1 hpw).2.2
    have hksorted : k ∈ sorted := (List.perm_insertionSort pairLe cands).mem_iff.2 hk
    have hksplit : k ∈ sorted.take m ++ sorted.drop m := by
      rw [hsplit]
      exact hksorted
    have hktake : k ∈ sorted.take m := by
      rcases List.mem_append.1 hksplit with h1 | h1
      · exact h1
      · exact absurd h1 hnk
    exact hcross k hktake d hd

/-- C1: The Reducer never deletes a protected clause, a core clause, or an
input clause — every long clause that is currently serving as a Trail step's
reason, or has glue ≤ 2, or is not marked redundant, is still present in the
clause database (same handle, same literals) after `ReduceOps::reduce`. -/
theorem claim_C1_reduce_keeps_protected_core_input
    (db : List (Nat × LongClause)) (steps : List Step) (h : Nat) (c : LongClause)
    (hnd : (db.map Prod.fst).Nodup) (hm : (h, c) ∈ db)
    (hp : (∃ s ∈ steps, s.reason = Reason.long h) ∨ c.data.glue ≤ 2 ∨
      c.data.redundant = false) :
    ∃ c', (h, c') ∈ reduce db steps ∧ c'.lits = c.lits := by
  obtain ⟨c1, hm1, hl1, hg1, hrd1, hu1, hpro1, hid1⟩ :=
    protect_clauses_mem_track steps db true h c hm
  have hcond : c1.data.protectedFlag = true ∨ c1.data.redundant = false ∨
      c1.data.glue ≤ 2 := by
    rcases hp with h1 | h1 | h1
    · exact Or.inl (hpro1 h1)
    · refine Or.inr (Or.inr ?_)
      rw [hg1]
      exact h1
    · refine Or.inr (Or.inl ?_)
      rw [hrd1]
      exact h1
  have hnone : (scanData c1.lits.length c1.data).2 = none := by
    rw [scanData_skip _ _ hcond]
  set db1 := protect_clauses db steps true with hdb1
  have hnd1 : (db1.map Prod.fst).Nodup := by
    rw [hdb1, protect_clauses_fst]
    exact hnd
  have hmem2 := scanClauses_mem db1 h c1 hm1
  have hnot := scanClauses_not_cand db1 h c1 hnd1 hm1 hnone
  have hfilter : (h, { c1 with data := (scanData c1.lits.length c1.data).1 }) ∈
      ((scanClauses db1).1).filter
        (fun e => !((selectDeleted (scanClauses db1).2).any (fun d => d.2 == e.1))) := by
    refine List.mem_filter.2 ⟨hmem2, ?_⟩
    rw [Bool.not_eq_true']
    rw [List.any_eq_false]
    intro d hd hbeq
    have hd2 : d.2 = h := by
      have := beq_iff_eq.1 hbeq
      simpa using this
    exact hnot (List.mem_map.2 ⟨d, selectDeleted_subset _ d hd, hd2⟩)
  obtain ⟨c', hmem4, hl4, _⟩ := protect_clauses_mem_exists steps _ false h _ hfilter
  refine ⟨c', ?_, ?_⟩
  · show (h, c') ∈ reduce db steps
    exact hmem4
  · rw [hl4]
    exact hl1

theorem claim_C1_witness :
    ∃ c', (0, c') ∈ reduce [(0, exClauseA)] [⟨⟨0⟩, 0, Reason.long 0⟩] ∧
      c'.lits = exClauseA.lits :=
  claim_C1_reduce_keeps_protected_core_input [(0, exClauseA)] [⟨⟨0⟩, 0, Reason.long 0⟩]
    0 exClauseA (by decide) (by decide)
    (Or.inl ⟨⟨⟨0⟩, 0, Reason.long 0⟩, by decide, rfl⟩)

/-- C6: Medium-tier retention — during one `ReduceOps::reduce` pass, every
long redundant unprotected clause with glue ≥ 3 has its `used` counter
decremented (saturating at 0), and if its `used` counter was > 0 and its glue
is ≤ 5 it is kept: it is never added to the deletion-candidate pool and is
still in the database after `reduce`, with the decremented counter. -/
theorem claim_C6_medium_tier_retention
    (db : List (Nat × LongClause)) (steps : List Step) (h : Nat) (c : LongClause)
    (hnd : (db.map Prod.fst).Nodup) (hm : (h, c) ∈ db)
    (hnr : ∀ s ∈ steps, s.reason ≠ Reason.long h)
    (hpf : c.data.protectedFlag = false) (hrd : c.data.redundant = true)
    (hg : 3 ≤ c.data.glue) :
    (∃ c1, (h, c1) ∈ (scanClauses (protect_clauses db steps true)).1 ∧
      c1.data.used = c.data.used - 1 ∧ c1.lits = c.lits) ∧
    (0 < c.data.used → c.data.glue ≤ 5 →
      h ∉ (reduceCandidates db steps).map Prod.snd ∧
      ∃ c', (h, c') ∈ reduce db steps ∧ c'.data.used = c.data.used - 1 ∧
        c'.lits = c.lits) := by
  obtain ⟨c1, hm1, hl1, hg1, hrd1, hu1, hpro1, hid1⟩ :=
    protect_clauses_mem_track steps db true h c hm
  have hc1 : c1 = c := hid1 hnr
  subst hc1
  set db1 := protect_clauses db steps true with hdb1
  have hnd1 : (db1.map Prod.fst).Nodup := by
    rw [hdb1, protect_clauses_fst]
    exact hnd
  have hdec := scanData_used_dec c1.lits.length c1.data hpf hrd hg
  constructor
  · exact ⟨{ c1 with data := (scanData c1.lits.length c1.data).1 },
      scanClauses_mem db1 h c1 hm1, hdec.1, rfl⟩
  · intro hu hg5
    have hnone : (scanData c1.lits.length c1.data).2 = none := by
      rw [scanData_medium _ _ hpf hrd hg hg5 hu]
    have hnot := scanClauses_not_cand db1 h c1 hnd1 hm1 hnone
    refine ⟨hnot, ?_⟩
    have hfilter : (h, { c1 with data := (scanData c1.lits.length c1.data).1 }) ∈
        ((scanClauses db1).1).filter
          (fun e => !((selectDeleted (scanClauses db1).2).any (fun d => d.2 == e.1))) := by
      refine List.mem_filter.2 ⟨scanClauses_mem db1 h c1 hm1, ?_⟩
      rw [Bool.not_eq_true']
      rw [List.any_eq_false]
      intro d hd hbeq
      have hd2 : d.2 = h := by
        have := beq_iff_eq.1 hbeq
        simpa using this
      exact hnot (List.mem_map.2 ⟨d, selectDeleted_subset _ d hd, hd2⟩)
    obtain ⟨c', hmem4, hl4, hg4, hrd4, hu4, hpro4, hid4⟩ :=
      protect_clauses_mem_track steps _ false h _ hfilter
    have hc' : c' = { c1 with data := (scanData c1.lits.length c1.data).1 } := hid4 hnr
    refine ⟨c', ?_, ?_, ?_⟩
    · show (h, c') ∈ reduce db steps
      exact hmem4
    · rw [hc']
      exact hdec.1
    · rw [hc']

theorem claim_C6_witness :
    ∃ c', (0, c') ∈ reduce [(0, (⟨[⟨0⟩, ⟨2⟩, ⟨4⟩], ⟨4, 2, false, true⟩⟩ : LongClause))] [] ∧
      c'.data.used = 1 ∧ c'.lits = [⟨0⟩, ⟨2⟩, ⟨4⟩] := by
  have h := (claim_C6_medium_tier_retention
    [(0, (⟨[⟨0⟩, ⟨2⟩, ⟨4⟩], ⟨4, 2, false, true⟩⟩ : LongClause))] [] 0
    (⟨[⟨0⟩, ⟨2⟩, ⟨4⟩], ⟨4, 2, false, true⟩⟩ : LongClause)
    (by decide) (by decide) (fun s hs => absurd hs (List.not_mem_nil s))
    rfl rfl (by decide)).2 (by decide) (by decide)
  exact h.2

/-- C2 counterexample: on a two-candidate pool `reduce` deletes nothing — the
strictly higher-scored candidate clause (handle 1), which alone makes up the
"worse half" of the pool, is still present afterwards, so it is false that
exactly the worse half of the pool is deleted. -/
theorem claim_C2_counterexample :
    (reduceCandidates exDb2 []).length = 2 ∧
    (Score.pack 3 6 4, 1) ∈ reduceCandidates exDb2 [] ∧
    (∀ k ∈ reduceCandidates exDb2 [], k.1 ≤ Score.pack 3 6 4) ∧
    reduce exDb2 [] = exDb2 := by
  decide

/-- C2 amended: if the deletion-candidate pool holds `n` clauses, `reduce`
deletes exactly the candidates ranked strictly above position `⌊n/2⌋` of the
pool in ascending `(score, handle)` order — that is `n - ⌊n/2⌋ - 1` clauses
(⌊n/2⌋ when `n` is odd, one fewer than `n/2` when `n` is even; the clause at
the median position is kept) — each deleted candidate scoring at least as high
as every kept one; all other candidates stay in the database. -/
theorem claim_C2_half_deletion_amended
    (db : List (Nat × LongClause)) (steps : List Step)
    (hnd : (db.map Prod.fst).Nodup) :
    (selectDeleted (reduceCandidates db steps)).length =
      (reduceCandidates db steps).length -
        ((reduceCandidates db steps).length / 2 + 1) ∧
    (∀ d ∈ selectDeleted (reduceCandidates db steps), d ∈ reduceCandidates db steps) ∧
    (∀ d ∈ selectDeleted (reduceCandidates db steps),
      ∀ k ∈ reduceCandidates db steps,
        k ∉ selectDeleted (reduceCandidates db steps) → pairLe k d) ∧
    (∀ d ∈ selectDeleted (reduceCandidates db steps),
      ∀ c, (d.2, c) ∉ reduce db steps) ∧
    (∀ k ∈ reduceCandidates db steps,
      k ∉ selectDeleted (reduceCandidates db steps) →
        ∃ c, (k.2, c) ∈ reduce db steps) := by
  set db1 := protect_clauses db steps true with hdb1
  have hnd1 : (db1.map Prod.fst).Nodup := by
    rw [hdb1, protect_clauses_fst]
    exact hnd
  set cands := (scanClauses db1).2 with hcands
  set dels := selectDeleted cands with hdels
  set db3 := ((scanClauses db1).1).filter
    (fun e => !(dels.any (fun d => d.2 == e.1))) with hdb3
  have hred : reduce db steps = protect_clauses db3 steps false := rfl
  refine ⟨selectDeleted_length cands, fun d hd => selectDeleted_subset cands d hd,
    fun d hd k hk hnk => selectDeleted_worse cands d k hd hk hnk, ?_, ?_⟩
  · intro d hd c hc
    rw [hred] at hc
    have hfst : d.2 ∈ (protect_clauses db3 steps false).map Prod.fst :=
      List.mem_map.2 ⟨(d.2, c), hc, rfl⟩
    rw [protect_clauses_fst] at hfst
    obtain ⟨e, he3, hefst⟩ := List.mem_map.1 hfst
    have hpred := (List.mem_filter.1 he3).2
    rw [Bool.not_eq_true', List.any_eq_false] at hpred
    refine hpred d hd ?_
    rw [hefst]
    exact beq_iff_eq.2 rfl
  · intro k hk hnk
    have hne : ∀ d ∈ dels, d.2 ≠ k.2 := by
      intro d hd heq
      have hd' : d ∈ cands := selectDeleted_subset cands d hd
      have hinj := List.inj_on_of_nodup_map (scanClauses_cands_nodup db1 hnd1)
      have hdk : d = k := hinj hd' hk heq
      exact hnk (hdk ▸ hd)
    have hkh : k.2 ∈ db1.map Prod.fst :=
      (scanClauses_cands_sublist db1).subset (List.mem_map.2 ⟨k, hk, rfl⟩)
    rw [← scanClauses_fst db1] at hkh
    obtain ⟨e, he, hefst⟩ := List.mem_map.1 hkh
    have he3 : e ∈ db3 := by
      refine List.mem_filter.2 ⟨he, ?_⟩
      rw [Bool.not_eq_true', List.any_eq_false]
      intro d hd hbeq
      have : d.2 = e.1 := beq_iff_eq.1 hbeq
      exact hne d hd (by rw [this, hefst])
    have hh3 : k.2 ∈ (protect_clauses db3 steps false).map Prod.fst := by
      rw [protect_clauses_fst]
      exact List.mem_map.2 ⟨e, he3, hefst⟩
    obtain ⟨e', he', hefst'⟩ := List.mem_map.1 hh3
    obtain ⟨e1, e2⟩ := e'
    refine ⟨e2, ?_⟩
    rw [hred]
    have he1 : e1 = k.2 := hefst'
    rw [← he1]
    exact he'

theorem claim_C2_amended_witness :
    (selectDeleted (reduceCandidates exDb3 [])).length =
      (reduceCandidates exDb3 []).length -
        ((reduceCandidates exDb3 []).length / 2 + 1) :=
  (claim_C2_half_deletion_amended exDb3 [] (by decide)).1

theorem unitEvents_assign_shape (us : List Lit) (assigned : List Lit) (s : Step)
    (hm : FrontEvent.assignUnit s ∈ unitEvents assigned us) :
    s.decisionLevel = 0 ∧ s.reason = Reason.unit := by
  induction us generalizing assigned with
  | nil =>
    rcases List.mem_cons.1 hm with heq | hm'
    · cases heq
    · exact absurd hm' (List.not_mem_nil _)
  | cons u rest ih =>
    unfold unitEvents at hm
    by_cases hf : isFalseIn assigned u
    · rw [if_pos hf] at hm
      rcases List.mem_cons.1 hm with heq | hm'
      · cases heq
      · exact absurd hm' (List.not_mem_nil _)
    · rw [if_neg hf] at hm
      by_cases ht : isTrueIn assigned u
      · rw [if_pos ht] at hm
        exact ih _ hm
      · rw [if_neg ht] at hm
        rcases List.mem_cons.1 hm with heq | hm'
        · injection heq with heq'
          subst heq'
          exact ⟨rfl, rfl⟩
        · exact ih _ hm'

theorem unitEvents_no_addClause (us : List Lit) (assigned : List Lit) (c : List Lit) :
    FrontEvent.addClause c ∉ unitEvents assigned us := by
  induction us generalizing assigned with
  | nil =>
    intro hm
    rcases List.mem_cons.1 hm with heq | hm'
    · cases heq
    · exact absurd hm' (List.not_mem_nil _)
  | cons u rest ih =>
    intro hm
    unfold unitEvents at hm
    by_cases hf : isFalseIn assigned u
    · rw [if_pos hf] at hm
      rcases List.mem_cons.1 hm with heq | hm'
      · cases heq
      · exact absurd hm' (List.not_mem_nil _)
    · rw [if_neg hf] at hm
      by_cases ht : isTrueIn assigned u
      · rw [if_pos ht] at hm
        exact ih _ hm
      · rw [if_neg ht] at hm
        rcases List.mem_cons.1 hm with heq | hm'
        · cases heq
        · exact ih _ hm'

theorem unitEvents_unsat_no_solve (us : List Lit) (assigned : List Lit)
    (hm : FrontEvent.reportUnsat ∈ unitEvents assigned us) :
    FrontEvent.solveStarted ∉ unitEvents assigned us := by
  induction us generalizing assigned with
  | nil =>
    rcases List.mem_cons.1 hm with heq | hm'
    · cases heq
    · exact absurd hm' (List.not_mem_nil _)
  | cons u rest ih =>
    unfold unitEvents at hm ⊢
    by_cases hf : isFalseIn assigned u
    · rw [if_pos hf]
      intro hcon
      rcases List.mem_cons.1 hcon with heq | hm'
      · cases heq
      · exact absurd hm' (List.not_mem_nil _)
    · rw [if_neg hf] at hm ⊢
      by_cases ht : isTrueIn assigned u
      · rw [if_pos ht] at hm ⊢
        exact ih _ hm
      · rw [if_neg ht] at hm ⊢
        intro hcon
        rcases List.mem_cons.1 hcon with heq | hm'
        · cases heq
        · rcases List.mem_cons.1 hm with heq2 | hm2
          · cases heq2
          · exact ih _ hm2 hm'

theorem unitEvents_unsat_last (us : List Lit) (assigned : List Lit) (i : Nat)
    (hg : (unitEvents assigned us).get? i = some FrontEvent.reportUnsat) :
    i + 1 = (unitEvents assigned us).length := by
  induction us generalizing assigned i with
  | nil =>
    cases i with
    | zero => cases hg
    | succ k => cases hg
  | cons u rest ih =>
    unfold unitEvents at hg ⊢
    by_cases hf : isFalseIn assigned u
    · rw [if_pos hf] at hg ⊢
      cases i with
      | zero => rfl
      | succ k => cases hg
    · rw [if_neg hf] at hg ⊢
      by_cases ht : isTrueIn assigned u
      · rw [if_pos ht] at hg ⊢
        exact ih _ _ hg
      · rw [if_neg ht] at hg ⊢
        cases i with
        | zero => cases hg
        | succ k =>
          have hg' : (unitEvents (u :: assigned) rest).get? k =
              some FrontEvent.reportUnsat := hg
          have hlen := ih (u :: assigned) k hg'
          simp only [List.length_cons]
          omega

/-- C7 counterexample: for the input `{(1, 2), (3)}` the front-end adds the
binary clause via `add_clause` (event 0) strictly before it pushes the unit
onto the trail (event 1) — so it is false that each unit is pushed before the
main clause set is added. -/
theorem claim_C7_counterexample :
    ¬ (∀ (i j : Nat) (s : Step) (c : List Lit),
        (mainEvents [[⟨2⟩, ⟨4⟩], [⟨6⟩]]).get? i = some (FrontEvent.assignUnit s) →
        (mainEvents [[⟨2⟩, ⟨4⟩], [⟨6⟩]]).get? j = some (FrontEvent.addClause c) →
        i < j) := by
  intro hcl
  have h := hcl 1 0 ⟨⟨6⟩, 0, Reason.unit⟩ [⟨2⟩, ⟨4⟩] (by decide) (by decide)
  omega

/-- C7 amended: each length-1 clause is handled by the caller before
`solve()`: a unit conflicting with an already-forced opposite unit makes the
front-end report UNSAT immediately — it is the last event, and the search
never starts; otherwise the unit is pushed onto the Trail at decision level 0
with reason `Unit`. The unit pass runs only after the whole input stream, so
every clause of length ≥ 2 is added via `add_clause` before any unit is
pushed (not after the units, as the spec sentence states). -/
theorem claim_C7_front_end_amended (clauses : List (List Lit)) :
    (∀ s : Step, FrontEvent.assignUnit s ∈ mainEvents clauses →
      s.decisionLevel = 0 ∧ s.reason = Reason.unit) ∧
    (∀ (i j : Nat) (c : List Lit) (s : Step),
      (mainEvents clauses).get? i = some (FrontEvent.addClause c) →
      (mainEvents clauses).get? j = some (FrontEvent.assignUnit s) → i < j) ∧
    (FrontEvent.reportUnsat ∈ mainEvents clauses →
      FrontEvent.solveStarted ∉ mainEvents clauses) ∧
    (∀ i : Nat, (mainEvents clauses).get? i = some FrontEvent.reportUnsat →
      i + 1 = (mainEvents clauses).length) ∧
    (∀ (assigned : List Lit) (u : Lit) (rest : List Lit),
      isFalseIn assigned u = true →
      unitEvents assigned (u :: rest) = [FrontEvent.reportUnsat]) := by
  set adds := ((splitUnits clauses).1).map FrontEvent.addClause with hadds
  set uevs := unitEvents [] (splitUnits clauses).2 with huevs
  have hme : mainEvents clauses = adds ++ uevs := rfl
  have hadds_shape : ∀ e ∈ adds, ∃ c, e = FrontEvent.addClause c := by
    intro e he
    obtain ⟨c, _, hc⟩ := List.mem_map.1 he
    exact ⟨c, hc.symm⟩
  refine ⟨?_, ?_, ?_, ?_, ?_⟩
  · intro s hm
    rw [hme] at hm
    rcases List.mem_append.1 hm with h1 | h1
    · obtain ⟨c, hc⟩ := hadds_shape _ h1
      cases hc
    · exact unitEvents_assign_shape _ _ s h1
  · intro i j c s hi hj
    rw [hme] at hi hj
    have hilt : i < adds.length := by
      by_contra hge
      rw [List.get?_append_right (by omega)] at hi
      exact unitEvents_no_addClause _ _ c (List.get?_mem hi)
    have hjge : adds.length ≤ j := by
      by_contra hlt
      rw [List.get?_append (by omega)] at hj
      obtain ⟨c', hc'⟩ := hadds_shape _ (List.get?_mem hj)
      cases hc'
    omega
  · intro hm
    rw [hme] at hm ⊢
    intro hcon
    rcases List.mem_append.1 hm with h1 | h1
    · obtain ⟨c, hc⟩ := hadds_shape _ h1
      cases hc
    · rcases List.mem_append.1 hcon with h2 | h2
      · obtain ⟨c, hc⟩ := hadds_shape _ h2
        cases hc
      · exact unitEvents_unsat_no_solve _ _ h1 h2
  · intro i hg
    rw [hme] at hg ⊢
    have hige : adds.length ≤ i := by
      by_contra hlt
      rw [List.get?_append (by omega)] at hg
      obtain ⟨c', hc'⟩ := hadds_shape _ (List.get?_mem hg)
      cases hc'
    rw [List.get?_append_right hige] at hg
    have hlen : i - adds.length + 1 = uevs.length :=
      unitEvents_unsat_last ((splitUnits clauses).2) [] (i - adds.length) hg
    rw [List.length_append]
    omega
  · intro assigned u rest hf
    unfold unitEvents
    rw [if_pos hf]

theorem claim_C7_amended_witness :
    ((⟨⟨6⟩, 0, Reason.unit⟩ : Step).decisionLevel = 0 ∧
      (⟨⟨6⟩, 0, Reason.unit⟩ : Step).reason = Reason.unit) ∧
    (0 : Nat) < 1 := by
  have h := claim_C7_front_end_amended [[⟨2⟩, ⟨4⟩], [⟨6⟩]]
  refine ⟨h.1 ⟨⟨6⟩, 0, Reason.unit⟩ (by decide), ?_⟩
  exact h.2.1 0 1 [⟨2⟩, ⟨4⟩] ⟨⟨6⟩, 0, Reason.unit⟩ (by decide) (by decide)

end Starlit
